import Mathlib

/-!
Verification of the block-delta core of openrsync (protocol 27) against its
specification.  The repository ships only the interface header `extern.h`;
every operation below is therefore modelled from the specification text
(`spec.md`), faithfully to its words: hashing primitives (§4.1), the block
set (§4.3), the block matcher (§4.4), the block merger (§4.5), the file
list (§4.6), the multiplex demultiplexer (§4.2) and the per-file merge
outcome policy (§4.5, §7).  Bytes are `Nat` values below 256, byte strings
are `List Nat`, and all machine arithmetic is `Nat` with explicit
reduction modulo `2^16` or `2^32`.
-/

/-- Little-endian byte encoding: `k` bytes of the natural number `n`
(the value is taken modulo `2^(8*k)`, as a C store into a `k`-byte word). -/
def leBytes : Nat → Nat → List Nat
  | 0, _ => []
  | k + 1, n => n % 256 :: leBytes k (n / 256)

/-- Little-endian byte decoding, inverse of `leBytes`. -/
def leNum : List Nat → Nat
  | [] => 0
  | b :: t => b % 256 + 256 * leNum t

theorem leBytes_length (k n : Nat) : (leBytes k n).length = k := by
  induction k generalizing n with
  | zero => rfl
  | succ k ih => simp [leBytes, ih]

theorem leNum_leBytes (k n : Nat) : leNum (leBytes k n) = n % 256 ^ k := by
  induction k generalizing n with
  | zero => simp [leBytes, leNum, Nat.mod_one]
  | succ k ih =>
      rw [pow_succ, mul_comm (256 ^ k) 256, Nat.mod_mul]
      simp [leBytes, leNum, ih]

/-- Read `k` bytes off the head of a stream, returning them and the rest;
`none` when the stream is too short. -/
def readBytes (k : Nat) (s : List Nat) : Option (List Nat × List Nat) :=
  if k ≤ s.length then some (s.take k, s.drop k) else none

theorem readBytes_append (xs rest : List Nat) :
    readBytes xs.length (xs ++ rest) = some (xs, rest) := by
  simp [readBytes]

/-! ## §4.1 hashing: the rolling checksum `hash_fast` -/

/-- Plain sum of the bytes of a window (the unreduced `s1` accumulator). -/
def sum1 : List Nat → Nat
  | [] => 0
  | a :: t => a + sum1 t

/-- Positionally weighted sum of a window: each byte weighted by its
distance from the window end (the unreduced `s2` accumulator). -/
def sum2 : List Nat → Nat
  | [] => 0
  | a :: t => (t.length + 1) * a + sum2 t

/-- Modelled from the spec: `hash_fast(buf, len) -> u32` (§4.1), the rolling
checksum, missing from `src/`.  It is `s1 | (s2 << 16)` with
`s1 = Σ buf[i]` and `s2 = Σ (len-i)·buf[i]`, both modulo `2^16`. -/
def hash_fast (w : List Nat) : Nat :=
  (sum1 w % 65536) ||| ((sum2 w % 65536) <<< 16)

/-- The reduced `(s1, s2)` pair of a window. -/
def fastPair (w : List Nat) : Nat × Nat :=
  (sum1 w % 65536, sum2 w % 65536)

/-- Recombine a reduced `(s1, s2)` pair into the 32-bit checksum. -/
def fastCombine (p : Nat × Nat) : Nat :=
  p.1 ||| (p.2 <<< 16)

/-- Modelled from the spec: the O(1) incremental form of `hash_fast`
(§4.1), missing from `src/`.  Given the previous window's reduced
`(s1, s2)`, the byte `out` leaving at the head, the byte `inn` entering at
the tail and the window length `len`, it produces the next `(s1, s2)`.
Subtraction is modular: adding `65536 - x % 65536` subtracts `x` mod `2^16`. -/
def rollHash (len out inn s1 s2 : Nat) : Nat × Nat :=
  let t1 := (s1 + (65536 - out % 65536) + inn) % 65536
  (t1, (s2 + (65536 - len * out % 65536) + t1) % 65536)

/-- The length-`n` window of buffer `b` starting at offset `k`. -/
def window (b : List Nat) (n k : Nat) : List Nat :=
  (b.drop k).take n

/-- Advance the incremental checksum `k` windows into buffer `b`:
start from the window at offset 0 computed afresh, then roll one byte
at a time. -/
def rollSteps (b : List Nat) (n : Nat) : Nat → Nat × Nat
  | 0 => fastPair (window b n 0)
  | k + 1 =>
      rollHash n (b.getD k 0) (b.getD (k + n) 0)
        (rollSteps b n k).1 (rollSteps b n k).2

/-! ## §4.1 hashing: the strong digest (MD4, RFC 1320) -/

/-- Rotate a 32-bit word left by `s` bits (C `(x << s) | (x >> (32 - s))`
on `uint32_t`). -/
def rotl32 (x s : Nat) : Nat :=
  (x <<< s) % 4294967296 ||| x >>> (32 - s)

/-- MD4 auxiliary function F: bitwise `(x & y) | (~x & z)`. -/
def md4F (x y z : Nat) : Nat :=
  x &&& y ||| (x ^^^ 4294967295) &&& z

/-- MD4 auxiliary function G: bitwise majority. -/
def md4G (x y z : Nat) : Nat :=
  x &&& y ||| x &&& z ||| y &&& z

/-- MD4 auxiliary function H: bitwise parity. -/
def md4H (x y z : Nat) : Nat :=
  x ^^^ y ^^^ z

/-- One MD4 operation: update the first component of the rotated state
tuple with `f`, message word `k` and shift `s`, then rotate the roles. -/
def md4step (f : Nat → Nat → Nat → Nat) (cst : Nat) (X : List Nat)
    (st : Nat × Nat × Nat × Nat) (ks : Nat × Nat) : Nat × Nat × Nat × Nat :=
  match st, ks with
  | (w, x, y, z), (k, s) =>
      (z, rotl32 ((w + f x y z + X.getD k 0 + cst) % 4294967296) s, x, y)

/-- Message-word schedule and shifts for MD4 round 1. -/
def md4ks1 : List (Nat × Nat) :=
  [(0,3),(1,7),(2,11),(3,19),(4,3),(5,7),(6,11),(7,19),
   (8,3),(9,7),(10,11),(11,19),(12,3),(13,7),(14,11),(15,19)]

/-- Message-word schedule and shifts for MD4 round 2. -/
def md4ks2 : List (Nat × Nat) :=
  [(0,3),(4,5),(8,9),(12,13),(1,3),(5,5),(9,9),(13,13),
   (2,3),(6,5),(10,9),(14,13),(3,3),(7,5),(11,9),(15,13)]

/-- Message-word schedule and shifts for MD4 round 3. -/
def md4ks3 : List (Nat × Nat) :=
  [(0,3),(8,9),(4,11),(12,15),(2,3),(10,9),(6,11),(14,15),
   (1,3),(9,9),(5,11),(13,15),(3,3),(11,9),(7,11),(15,15)]

/-- Compress one 64-byte chunk into the running MD4 state. -/
def md4compress (st : Nat × Nat × Nat × Nat) (chunk : List Nat) :
    Nat × Nat × Nat × Nat :=
  let X := (List.range 16).map fun j => leNum ((chunk.drop (4 * j)).take 4)
  let r1 := md4ks1.foldl (md4step md4F 0 X) st
  let r2 := md4ks2.foldl (md4step md4G 1518500249 X) r1
  let r3 := md4ks3.foldl (md4step md4H 1859775393 X) r2
  ((st.1 + r3.1) % 4294967296,
   (st.2.1 + r3.2.1) % 4294967296,
   (st.2.2.1 + r3.2.2.1) % 4294967296,
   (st.2.2.2 + r3.2.2.2) % 4294967296)

/-- MD4 padding: append `0x80`, zero-fill to 56 mod 64, then the bit
length as a little-endian 64-bit quantity. -/
def md4pad (msg : List Nat) : List Nat :=
  msg ++ 128 :: List.replicate ((119 - msg.length % 64) % 64) 0
      ++ leBytes 8 (8 * msg.length)

/-- Split a byte string into successive 64-byte chunks; `fuel` bounds the
number of chunks and is never exhausted when it starts at the string
length (each step drops 64 bytes of a nonempty string). -/
def chunksAux : Nat → List Nat → List (List Nat)
  | 0, _ => []
  | fuel + 1, l => if l = [] then [] else l.take 64 :: chunksAux fuel (l.drop 64)

/-- Split a byte string into successive 64-byte chunks. -/
def chunks64 (l : List Nat) : List (List Nat) :=
  chunksAux l.length l

/-- Modelled from the spec: the 16-byte MD4 digest (RFC 1320) of a byte
string, the strong digest primitive of §4.1, missing from `src/`. -/
def md4 (msg : List Nat) : List Nat :=
  let st := (chunks64 (md4pad msg)).foldl md4compress
    (1732584193, 4023233417, 2562383102, 271733878)
  leBytes 4 st.1 ++ leBytes 4 st.2.1 ++ leBytes 4 st.2.2.1 ++ leBytes 4 st.2.2.2

/-- Per-peer session state (`struct sess`): the parts the hashing and
framing layers read, namely the 32-bit checksum seed. -/
structure Sess where
  seed : Int
deriving Repr, DecidableEq

/-- The seed as 4 little-endian bytes (two's complement of `int32_t`). -/
def seedBytes (sess : Sess) : List Nat :=
  leBytes 4 (sess.seed % 4294967296).toNat

/-- Modelled from the spec: `hash_slow(buf, len, out, sess)` (§4.1),
missing from `src/`.  MD4 over the 4 little-endian seed bytes followed by
the buffer. -/
def hash_slow (buf : List Nat) (sess : Sess) : List Nat :=
  md4 (seedBytes sess ++ buf)

/-- Modelled from the spec: `hash_file(buf, len, out, sess)` (§4.1),
missing from `src/`.  MD4 over the buffer followed by the 4 seed bytes
(the seed placement differs from `hash_slow`). -/
def hash_file (buf : List Nat) (sess : Sess) : List Nat :=
  md4 (buf ++ seedBytes sess)

theorem md4_length (msg : List Nat) : (md4 msg).length = 16 := by
  simp [md4, leBytes_length]

/-! ## §4.3 block set -/

/-- An individual block description (`struct blk`): offset, index, length,
fast checksum and the 16-byte strong checksum (of which only the leading
`csum` bytes are meaningful on the wire). -/
structure Blk where
  offs : Nat
  idx : Nat
  len : Nat
  chksum_short : Nat
  chksum_long : List Nat
deriving Repr, DecidableEq

instance : Inhabited Blk :=
  ⟨{ offs := 0, idx := 0, len := 0, chksum_short := 0, chksum_long := [] }⟩

/-- A per-file block set (`struct blkset`): file size, remainder block
length, nominal block length, strong-checksum length, and the blocks. -/
structure Blkset where
  size : Nat
  rem : Nat
  len : Nat
  csum : Nat
  blks : List Blk
deriving Repr, DecidableEq

/-- Block `i` of target `T`: offset `i * len`, `blen` bytes, with its
fast checksum and strong digest. -/
def blkAt (T : List Nat) (sess : Sess) (len i blen : Nat) : Blk :=
  let bytes := (T.drop (i * len)).take blen
  { offs := i * len, idx := i, len := blen,
    chksum_short := hash_fast bytes, chksum_long := hash_slow bytes sess }

/-- Modelled from the spec: block-set construction (§4.3), missing from
`src/`.  `floor(size/len)` full blocks plus, when `size mod len ≠ 0`, a
trailing block of length `rem = size mod len`; empty files get the
special all-zero set. -/
def mkBlkset (T : List Nat) (len csum : Nat) (sess : Sess) : Blkset :=
  if T.length = 0 then
    { size := 0, rem := 0, len := 0, csum := csum, blks := [] }
  else
    { size := T.length, rem := T.length % len, len := len, csum := csum,
      blks := (List.range (T.length / len)).map (fun i => blkAt T sess len i len)
        ++ (if T.length % len = 0 then []
            else [blkAt T sess len (T.length / len) (T.length % len)]) }

/-- The per-block wire records of `blk_send` (§4.3): for each block the
4-byte fast checksum then the leading `csum` bytes of the strong one. -/
def blkRecords (bs : Blkset) : List Nat :=
  (bs.blks.map fun b => leBytes 4 b.chksum_short ++ b.chksum_long.take bs.csum).flatten

/-- Modelled from the spec: the block-set serialisation of `blk_send`
(§4.3), missing from `src/`: `blksz`, `len`, `csum`, `rem` as 4-byte
little-endian integers, then the per-block records. -/
def blk_send (bs : Blkset) : List Nat :=
  leBytes 4 bs.blks.length ++ leBytes 4 bs.len ++ leBytes 4 bs.csum
    ++ leBytes 4 bs.rem ++ blkRecords bs

/-! ## §4.4 block matcher (sender side) -/

/-- A token of the delta stream: a literal byte run or a block reference
(§3, "Token stream"). -/
inductive Token where
  | lit : List Nat → Token
  | ref : Nat → Token
deriving Repr, DecidableEq

/-- Split a pending literal run into records of at most
`MAX_CHUNK = 32768` bytes; `fuel` bounds the number of records and is
never exhausted when it starts at the run length. -/
def chunkLitsAux : Nat → List Nat → List Token
  | 0, _ => []
  | fuel + 1, l =>
      if l = [] then []
      else Token.lit (l.take 32768) :: chunkLitsAux fuel (l.drop 32768)

/-- Split a pending literal run into records of at most
`MAX_CHUNK = 32768` bytes (§4.4 step 4); an empty run yields no record. -/
def chunkLits (l : List Nat) : List Token :=
  chunkLitsAux l.length l

/-- Does window `w` match block `b`: equal length, equal fast checksum,
and equal strong checksum truncated to `csum` bytes (§4.4 step 3). -/
def blkMatches (sess : Sess) (csum : Nat) (w : List Nat) (b : Blk) : Bool :=
  b.len == w.length && b.chksum_short == hash_fast w
    && (hash_slow w sess).take csum == b.chksum_long.take csum

/-- The candidate block matching window `w`, preferring the
lowest-indexed one (§4.4 tie-break). -/
def findBlk (sess : Sess) (csum : Nat) (blks : List Blk) (w : List Nat) :
    Option Blk :=
  blks.find? (blkMatches sess csum w)

/-- Modelled from the spec: the sliding-window loop of `blk_match` (§4.4
steps 3-6), missing from `src/`.  At offset `pos` the window is the next
`bs.len` bytes (shorter near EOF).  On a match: flush the pending
literals `[litStart, pos)` in `MAX_CHUNK` records, emit the block
reference, and skip the matched bytes.  Otherwise slide by one byte.  At
EOF flush the residual literals.  (`max _ 1` only guards termination for
degenerate zero-length blocks, which no constructed block set contains.) -/
def matchGo (sess : Sess) (bs : Blkset) (S : List Nat) :
    Nat → Nat → Nat → List Token
  | 0, _, litStart => chunkLits (S.drop litStart)
  | fuel + 1, pos, litStart =>
      if pos < S.length then
        match findBlk sess bs.csum bs.blks ((S.drop pos).take bs.len) with
        | some k =>
            chunkLits ((S.drop litStart).take (pos - litStart))
              ++ Token.ref k.idx
              :: matchGo sess bs S fuel (pos + max k.len 1) (pos + max k.len 1)
        | none => matchGo sess bs S fuel (pos + 1) litStart
      else
        chunkLits (S.drop litStart)

/-- Modelled from the spec: `blk_match` (§4.4), missing from `src/`.  The
token stream for source `S` against block set `bs`, together with the
whole-file digest `hash_file(S)` that terminates the stream (step 6).
The loop advances by at least one byte per step, so fuel `|S| + 1` is
never exhausted. -/
def blk_match (sess : Sess) (bs : Blkset) (S : List Nat) :
    List Token × List Nat :=
  (matchGo sess bs S (S.length + 1) 0 0, hash_file S sess)

/-- The 32-bit count announcing a token on the wire: a positive literal
length, or `-(idx+1)` as two's complement (§3, §6). -/
def tokenCount : Token → Nat
  | Token.lit b => b.length
  | Token.ref i => 4294967296 - (i + 1)

/-- One token on the wire: its count, then for a literal the raw bytes. -/
def tokenBytes (t : Token) : List Nat :=
  leBytes 4 (tokenCount t) ++ (match t with | Token.lit b => b | Token.ref _ => [])

/-- A whole delta on the wire: the tokens, the terminating zero count,
then the 16-byte whole-file digest. -/
def tokWire (d : List Token × List Nat) : List Nat :=
  (d.1.map tokenBytes).flatten ++ leBytes 4 0 ++ d.2

/-! ## §4.5 block merger (receiver side) -/

/-- The bytes a single token contributes to the reconstruction: a literal
run verbatim, or block `i` of the receiver's copy `T` (offset `offs`,
length `len` looked up in the block set). -/
def renderTok (T : List Nat) (bs : Blkset) : Token → List Nat
  | Token.lit b => b
  | Token.ref i => ((T.drop (bs.blks.getD i default).offs).take (bs.blks.getD i default).len)

/-- Modelled from the spec: the reconstruction loop of `blk_merge` (§4.5
step 1), missing from `src/`: write each literal run verbatim and copy
each referenced block from the local file, in token order. -/
def blk_merge (T : List Nat) (bs : Blkset) : List Token → List Nat
  | [] => []
  | t :: ts => renderTok T bs t ++ blk_merge T bs ts

/-! ## Lemmas about the rolling checksum -/

theorem sum1_append (xs ys : List Nat) : sum1 (xs ++ ys) = sum1 xs + sum1 ys := by
  induction xs with
  | nil => simp [sum1]
  | cons a t ih => simp [sum1, ih]; ring

theorem sum2_snoc (xs : List Nat) (z : Nat) :
    sum2 (xs ++ [z]) = sum2 xs + sum1 xs + z := by
  induction xs with
  | nil => simp [sum1, sum2]
  | cons a t ih =>
      simp [sum2, sum1, ih, List.length_append]
      ring

theorem sum1_eq_range (w : List Nat) :
    sum1 w = ((List.range w.length).map fun i => w.getD i 0).sum := by
  induction w with
  | nil => simp [sum1]
  | cons a t ih =>
      rw [List.length_cons, List.range_succ_eq_map, List.map_cons, List.sum_cons,
        List.map_map]
      have hfg : List.map ((fun i => (a :: t).getD i 0) ∘ Nat.succ) (List.range t.length)
          = List.map (fun i => t.getD i 0) (List.range t.length) :=
        List.map_congr_left fun i _ => by simp [Function.comp, List.getD_cons_succ]
      rw [hfg]
      simp [sum1, ih]

theorem sum2_eq_range (w : List Nat) :
    sum2 w = ((List.range w.length).map fun i => (w.length - i) * w.getD i 0).sum := by
  induction w with
  | nil => simp [sum2]
  | cons a t ih =>
      rw [List.length_cons, List.range_succ_eq_map, List.map_cons, List.sum_cons,
        List.map_map]
      have hfg : List.map ((fun i => (t.length + 1 - i) * (a :: t).getD i 0) ∘ Nat.succ)
            (List.range t.length)
          = List.map (fun i => (t.length - i) * t.getD i 0) (List.range t.length) :=
        List.map_congr_left fun i _ => by
          simp [Function.comp, List.getD_cons_succ, Nat.succ_sub_succ]
      rw [hfg]
      simp [sum2, ih]

theorem mod_cancel (x y z : Nat) :
    ((x + y) % 65536 + (65536 - x % 65536) + z) % 65536 = (y + z) % 65536 := by
  have hx := Nat.div_add_mod x 65536
  have hr : x % 65536 < 65536 := Nat.mod_lt _ (by norm_num)
  have h2 : x + y + (65536 - x % 65536) + z = 65536 * (x / 65536 + 1) + (y + z) := by
    omega
  have h1 : (x + y) % 65536 + (65536 - x % 65536) + z
      ≡ x + y + (65536 - x % 65536) + z [MOD 65536] :=
    Nat.ModEq.add_right z (Nat.ModEq.add_right _ (Nat.mod_modEq (x + y) 65536))
  have h3 : x + y + (65536 - x % 65536) + z ≡ y + z [MOD 65536] := by
    rw [h2]
    exact Nat.mul_add_mod 65536 (x / 65536 + 1) (y + z)
  exact h1.trans h3

theorem add_mod_mod (a b : Nat) : (a + b % 65536) % 65536 = (a + b) % 65536 := by
  have h := Nat.div_add_mod b 65536
  have h2 : a + b = a + b % 65536 + 65536 * (b / 65536) := by omega
  rw [h2, Nat.add_mul_mod_self_left]

theorem window_cons (b : List Nat) (n k : Nat) (hn : 0 < n) (hk : k < b.length) :
    window b n k = b.getD k 0 :: (b.drop (k + 1)).take (n - 1) := by
  obtain ⟨m, rfl⟩ : ∃ m, n = m + 1 := ⟨n - 1, by omega⟩
  unfold window
  rw [List.drop_eq_getElem_cons hk, List.getD_eq_getElem b 0 hk,
    List.take_succ_cons, Nat.add_sub_cancel]

theorem window_snoc (b : List Nat) (n k : Nat) (hn : 0 < n)
    (hk : k + 1 + n ≤ b.length) :
    window b n (k + 1) = (b.drop (k + 1)).take (n - 1) ++ [b.getD (k + n) 0] := by
  obtain ⟨m, rfl⟩ : ∃ m, n = m + 1 := ⟨n - 1, by omega⟩
  unfold window
  rw [show m + 1 - 1 = m from rfl, List.take_succ]
  have hlt : m < (b.drop (k + 1)).length := by
    simp only [List.length_drop]; omega
  rw [List.getElem?_eq_getElem hlt]
  have hklt : k + (m + 1) < b.length := by omega
  rw [List.getD_eq_getElem b 0 hklt]
  have : (b.drop (k + 1))[m] = b[k + (m + 1)] := by
    rw [List.getElem_drop]
    congr 1
    omega
  rw [this]
  simp

theorem rollHash_step (nlen A Z : Nat) (mid : List Nat)
    (h : mid.length + 1 = nlen) :
    rollHash nlen A Z (fastPair (A :: mid)).1 (fastPair (A :: mid)).2
      = fastPair (mid ++ [Z]) := by
  simp only [fastPair, rollHash, sum1, sum2, sum1_append, sum2_snoc, h,
    Nat.add_zero, Prod.mk.injEq]
  constructor
  · rw [mod_cancel A (sum1 mid) Z]
  · rw [mod_cancel A (sum1 mid) Z, mod_cancel (nlen * A) (sum2 mid), add_mod_mod]
    congr 1
    omega

theorem rollSteps_eq (b : List Nat) (n : Nat) (hn : 0 < n) :
    ∀ k, k + n ≤ b.length → rollSteps b n k = fastPair (window b n k) := by
  intro k
  induction k with
  | zero => intro _; rfl
  | succ k ih =>
      intro hk
      have hk' : k + n ≤ b.length := by omega
      have hklt : k < b.length := by omega
      have hmid : ((b.drop (k + 1)).take (n - 1)).length + 1 = n := by
        simp only [List.length_take, List.length_drop]
        omega
      calc rollSteps b n (k + 1)
          = rollHash n (b.getD k 0) (b.getD (k + n) 0)
              (rollSteps b n k).1 (rollSteps b n k).2 := rfl
        _ = rollHash n (b.getD k 0) (b.getD (k + n) 0)
              (fastPair (window b n k)).1 (fastPair (window b n k)).2 := by
              rw [ih hk']
        _ = fastPair (window b n (k + 1)) := by
              rw [window_cons b n k hn hklt, window_snoc b n k hn (by omega),
                rollHash_step n (b.getD k 0) (b.getD (k + n) 0) _ hmid]

/-- C4: `hash_fast(buf, len)` equals `s1 | (s2 << 16)` where
`s1 = Σ buf[i] mod 2^16` and `s2 = Σ (len - i)·buf[i] mod 2^16`. -/
theorem C4_hash_fast_closed_form (buf : List Nat) :
    hash_fast buf =
      ((((List.range buf.length).map fun i => buf.getD i 0).sum % 65536) |||
       ((((List.range buf.length).map fun i =>
           (buf.length - i) * buf.getD i 0).sum % 65536) <<< 16)) := by
  rw [hash_fast, sum1_eq_range, sum2_eq_range]

/-- C2: advancing the incremental form of `hash_fast` one byte at a time
over the successive length-`n` windows of `b` yields, at every window
position `k`, the reduced `(s1, s2)` pair of that window, hence the same
32-bit value as computing `hash_fast` afresh on the window. -/
theorem C2_hash_fast_rolling (b : List Nat) (n k : Nat) (hn : 0 < n)
    (hk : k + n ≤ b.length) :
    rollSteps b n k = fastPair (window b n k) ∧
      fastCombine (rollSteps b n k) = hash_fast (window b n k) := by
  have h := rollSteps_eq b n hn k hk
  exact ⟨h, by rw [h]; rfl⟩

/-- Witness for C2 at the buffer `[10, 20, 30, 40, 50]`, window length 2,
position 3. -/
theorem C2_hash_fast_rolling_witness :
    (0 < 2 ∧ 3 + 2 ≤ ([10, 20, 30, 40, 50] : List Nat).length) ∧
      (rollSteps [10, 20, 30, 40, 50] 2 3 = fastPair (window [10, 20, 30, 40, 50] 2 3) ∧
        fastCombine (rollSteps [10, 20, 30, 40, 50] 2 3)
          = hash_fast (window [10, 20, 30, 40, 50] 2 3)) :=
  ⟨⟨by decide, by decide⟩,
    C2_hash_fast_rolling [10, 20, 30, 40, 50] 2 3 (by decide) (by decide)⟩

/-! ## Lemmas about the matcher and merger -/

theorem blk_merge_append (T : List Nat) (bs : Blkset) (xs ys : List Token) :
    blk_merge T bs (xs ++ ys) = blk_merge T bs xs ++ blk_merge T bs ys := by
  induction xs with
  | nil => rfl
  | cons t ts ih => simp [blk_merge, ih]

theorem blk_merge_chunkLitsAux (T : List Nat) (bs : Blkset) :
    ∀ fuel l, l.length ≤ fuel → blk_merge T bs (chunkLitsAux fuel l) = l := by
  intro fuel
  induction fuel with
  | zero =>
      intro l h
      have hl : l = [] := by
        cases l with
        | nil => rfl
        | cons a t => simp at h
      subst hl
      rfl
  | succ fuel ih =>
      intro l h
      by_cases hl : l = []
      · subst hl; rfl
      · simp only [chunkLitsAux, if_neg hl, blk_merge, renderTok]
        rw [ih (l.drop 32768) (by simp only [List.length_drop]; omega)]
        exact List.take_append_drop 32768 l

theorem blk_merge_chunkLits (T : List Nat) (bs : Blkset) (l : List Nat) :
    blk_merge T bs (chunkLits l) = l :=
  blk_merge_chunkLitsAux T bs l.length l (le_refl _)

theorem mkBlkset_blk_pos (T : List Nat) (len csum : Nat) (sess : Sess) :
    ∀ b ∈ (mkBlkset T len csum sess).blks, 0 < b.len := by
  intro b hb
  unfold mkBlkset at hb
  by_cases h0 : T.length = 0
  · rw [if_pos h0] at hb
    simp at hb
  · rw [if_neg h0] at hb
    simp only [List.mem_append, List.mem_map, List.mem_range] at hb
    rcases hb with ⟨i, hi, rfl⟩ | hb
    · simp only [blkAt]
      rcases Nat.eq_zero_or_pos len with hlen | hlen
      · subst hlen
        rw [Nat.div_zero] at hi
        omega
      · exact hlen
    · by_cases hrem : T.length % len = 0
      · rw [if_pos hrem] at hb
        simp at hb
      · rw [if_neg hrem] at hb
        simp only [List.mem_singleton] at hb
        subst hb
        simp only [blkAt]
        omega

/-- No false match at source offset `pos`: whenever the matcher finds a
candidate block for the window there, the receiver's copy of that block
has exactly the window's bytes.  (A truncated-checksum collision is
precisely a violation of this.) -/
def noFalseMatch (sess : Sess) (bs : Blkset) (T S : List Nat) (pos : Nat) : Bool :=
  match findBlk sess bs.csum bs.blks ((S.drop pos).take bs.len) with
  | some k => renderTok T bs (Token.ref k.idx) == (S.drop pos).take bs.len
  | none => true

theorem matchGo_merge (sess : Sess) (bs : Blkset) (S T : List Nat)
    (hbpos : ∀ b ∈ bs.blks, 0 < b.len)
    (hgood : ∀ pos, pos < S.length → noFalseMatch sess bs T S pos = true) :
    ∀ fuel pos litStart, S.length ≤ pos + fuel → litStart ≤ pos →
      blk_merge T bs (matchGo sess bs S fuel pos litStart) = S.drop litStart := by
  intro fuel
  induction fuel with
  | zero =>
      intro pos litStart hf hls
      simp only [matchGo]
      exact blk_merge_chunkLits T bs _
  | succ fuel ih =>
      intro pos litStart hf hls
      simp only [matchGo]
      by_cases hlt : pos < S.length
      · rw [if_pos hlt]
        rcases hfind : findBlk sess bs.csum bs.blks ((S.drop pos).take bs.len)
          with _ | k
        · exact ih (pos + 1) litStart (by omega) (by omega)
        · have hk_mem : k ∈ bs.blks := List.mem_of_find?_eq_some hfind
          have hk_match := List.find?_some hfind
          simp only [blkMatches, Bool.and_eq_true, beq_iff_eq] at hk_match
          have hklen : k.len = ((S.drop pos).take bs.len).length := by tauto
          have hkpos : 0 < k.len := hbpos k hk_mem
          have hmax : max k.len 1 = k.len := by omega
          have hg := hgood pos hlt
          unfold noFalseMatch at hg
          rw [hfind] at hg
          have hrend : renderTok T bs (Token.ref k.idx) = (S.drop pos).take bs.len :=
            eq_of_beq hg
          rw [blk_merge_append, blk_merge_chunkLits]
          simp only [blk_merge]
          rw [ih _ _ (by omega) (le_refl _), hrend, hmax]
          have hwl : ((S.drop pos).take bs.len).length = min bs.len (S.length - pos) := by
            simp
          have h1 : S.drop (pos + k.len) =
              (S.drop pos).drop ((S.drop pos).take bs.len).length := by
            rw [List.drop_drop, hklen]
          have h2 : (S.drop pos).take bs.len
              ++ (S.drop pos).drop ((S.drop pos).take bs.len).length = S.drop pos := by
            rw [List.length_take]
            rcases le_total bs.len (S.drop pos).length with hle | hge
            · rw [min_eq_left hle, List.take_append_drop]
            · rw [min_eq_right hge, List.drop_length, List.append_nil,
                List.take_of_length_le hge]
          have h3 : (S.drop litStart).take (pos - litStart) ++ S.drop pos
              = S.drop litStart := by
            have hd : S.drop pos = (S.drop litStart).drop (pos - litStart) := by
              rw [List.drop_drop]
              congr 1
              omega
            rw [hd, List.take_append_drop]
          rw [h1, h2]
          exact h3
      · rw [if_neg hlt]
        exact blk_merge_chunkLits T bs _

/-- C1 (amended): for any source `S` and target `T`, with
`BS = mkBlkset T len csum sess`, if no window of `S` falsely matches a
block of `BS` (i.e. every fast + truncated-strong checksum hit denotes
actual byte equality with the receiver's block), then the merger applied
to `T`, `BS` and the matcher's token stream reconstructs exactly `S`, and
the digest terminating the stream is `hash_file(S, |S|, seed)`.  Without
the no-collision hypothesis the claim fails (see the counterexample). -/
theorem C1_roundtrip (S T : List Nat) (len csum : Nat) (sess : Sess)
    (H : ∀ pos, pos < S.length →
      noFalseMatch sess (mkBlkset T len csum sess) T S pos = true) :
    blk_merge T (mkBlkset T len csum sess)
        (blk_match sess (mkBlkset T len csum sess) S).1 = S ∧
      (blk_match sess (mkBlkset T len csum sess) S).2 = hash_file S sess := by
  refine ⟨?_, rfl⟩
  have h := matchGo_merge sess (mkBlkset T len csum sess) S T
    (mkBlkset_blk_pos T len csum sess) H (S.length + 1) 0 0 (by omega) (le_refl 0)
  simpa [blk_match] using h

/-- Witness for C1 at `S = T = [1, 2, 3, 4]`, block length 2, phase-2
checksums, seed 0. -/
theorem C1_roundtrip_witness :
    (∀ pos, pos < ([1, 2, 3, 4] : List Nat).length →
      noFalseMatch ⟨0⟩ (mkBlkset [1, 2, 3, 4] 2 16 ⟨0⟩) [1, 2, 3, 4] [1, 2, 3, 4] pos
        = true) ∧
      (blk_merge [1, 2, 3, 4] (mkBlkset [1, 2, 3, 4] 2 16 ⟨0⟩)
          (blk_match ⟨0⟩ (mkBlkset [1, 2, 3, 4] 2 16 ⟨0⟩) [1, 2, 3, 4]).1
        = [1, 2, 3, 4] ∧
       (blk_match ⟨0⟩ (mkBlkset [1, 2, 3, 4] 2 16 ⟨0⟩) [1, 2, 3, 4]).2
        = hash_file [1, 2, 3, 4] ⟨0⟩) :=
  ⟨by decide, C1_roundtrip [1, 2, 3, 4] [1, 2, 3, 4] 2 16 ⟨0⟩ (by decide)⟩

/-- Counterexample to C1 as stated: with phase-1 truncated checksums
(`csum = 2`, seed 0), the source `[109, 78, 129, 67, 132, 108, 44, 133]`
and the 1-block target `[132, 92, 76, 61, 131, 64, 179, 65]` share both
the fast checksum and the leading 2 strong-checksum bytes, so the matcher
emits a false block reference and the merger reconstructs the target's
bytes, not the source's. -/
theorem C1_counterexample :
    blk_merge [132, 92, 76, 61, 131, 64, 179, 65]
        (mkBlkset [132, 92, 76, 61, 131, 64, 179, 65] 8 2 ⟨0⟩)
        (blk_match ⟨0⟩ (mkBlkset [132, 92, 76, 61, 131, 64, 179, 65] 8 2 ⟨0⟩)
          [109, 78, 129, 67, 132, 108, 44, 133]).1
      ≠ [109, 78, 129, 67, 132, 108, 44, 133] := by
  decide

/-! ## §4.3 block-set shape -/

theorem sum_map_const (n c : Nat) : ((List.range n).map fun _ => c).sum = n * c := by
  simp [List.map_const', List.sum_replicate, smul_eq_mul]

theorem mkBlkset_blks (T : List Nat) (len csum : Nat) (sess : Sess) :
    (mkBlkset T len csum sess).blks
      = (List.range (T.length / len)).map (fun i => blkAt T sess len i len)
        ++ (if T.length % len = 0 then []
            else [blkAt T sess len (T.length / len) (T.length % len)]) := by
  unfold mkBlkset
  by_cases h0 : T.length = 0
  · rw [if_pos h0, h0]
    simp
  · rw [if_neg h0]

theorem blkAt_len (T : List Nat) (sess : Sess) (len i blen : Nat) :
    (blkAt T sess len i blen).len = blen := rfl

theorem blkAt_offs (T : List Nat) (sess : Sess) (len i blen : Nat) :
    (blkAt T sess len i blen).offs = i * len := rfl

theorem blkAt_idx (T : List Nat) (sess : Sess) (len i blen : Nat) :
    (blkAt T sess len i blen).idx = i := rfl

theorem mkBlkset_getD (T : List Nat) (len csum : Nat) (sess : Sess)
    (hlen : 0 < len) :
    ∀ i, i < (mkBlkset T len csum sess).blks.length →
      (mkBlkset T len csum sess).blks.getD i default
        = blkAt T sess len i
            (if i < T.length / len then len else T.length % len) := by
  intro i hi
  rw [mkBlkset_blks] at hi ⊢
  have hfl : ((List.range (T.length / len)).map
      (fun i => blkAt T sess len i len)).length = T.length / len := by
    simp
  by_cases hiq : i < T.length / len
  · rw [List.getD_append _ _ _ _ (by omega), if_pos hiq,
      List.getD_eq_getElem _ _ (by omega), List.getElem_map, List.getElem_range]
  · rw [if_neg hiq]
    rw [List.getD_append_right _ _ _ _ (by omega)]
    by_cases hrem : T.length % len = 0
    · rw [if_pos hrem] at hi
      simp at hi
      omega
    · rw [if_neg hrem] at hi ⊢
      simp only [List.length_append, List.length_singleton] at hi
      have : i = T.length / len := by omega
      subst this
      rw [hfl]
      simp

/-- C3: for a file of size `|T|` and chosen block length `len > 0`, the
constructed block set has `floor(size/len)` full blocks, a trailing block
of length `size mod len` exactly when that remainder is nonzero, block
`i` at offset `i * len`, contiguous blocks, and block lengths summing to
the file size. -/
theorem C3_blkset_shape (T : List Nat) (len csum : Nat) (sess : Sess)
    (hlen : 0 < len) :
    ((mkBlkset T len csum sess).blks.filter fun b => b.len == len).length
        = T.length / len ∧
      (mkBlkset T len csum sess).blks.length
        = T.length / len + (if T.length % len = 0 then 0 else 1) ∧
      (T.length % len ≠ 0 →
        ∃ b, (mkBlkset T len csum sess).blks.getLast? = some b
          ∧ b.len = T.length % len) ∧
      (∀ i, i < (mkBlkset T len csum sess).blks.length →
        ((mkBlkset T len csum sess).blks.getD i default).offs = i * len ∧
        ((mkBlkset T len csum sess).blks.getD i default).idx = i) ∧
      ((mkBlkset T len csum sess).blks.map Blk.len).sum = T.length ∧
      (∀ i, i + 1 < (mkBlkset T len csum sess).blks.length →
        ((mkBlkset T len csum sess).blks.getD (i + 1) default).offs
          = ((mkBlkset T len csum sess).blks.getD i default).offs
            + ((mkBlkset T len csum sess).blks.getD i default).len) := by
  have hrlt : T.length % len < len := Nat.mod_lt _ hlen
  refine ⟨?_, ?_, ?_, ?_, ?_, ?_⟩
  · rw [mkBlkset_blks, List.filter_append]
    have h1 : ((List.range (T.length / len)).map
          (fun i => blkAt T sess len i len)).filter (fun b => b.len == len)
        = (List.range (T.length / len)).map (fun i => blkAt T sess len i len) := by
      apply List.filter_eq_self.mpr
      intro b hb
      rcases List.mem_map.mp hb with ⟨i, _, rfl⟩
      simp [blkAt_len]
    rw [h1]
    by_cases hrem : T.length % len = 0
    · rw [if_pos hrem]
      simp
    · rw [if_neg hrem]
      have h2 : ([blkAt T sess len (T.length / len) (T.length % len)]).filter
          (fun b => b.len == len) = [] := by
        apply List.filter_eq_nil_iff.mpr
        intro b hb
        rcases List.mem_singleton.mp hb with rfl
        simp [blkAt_len]
        omega
      rw [h2]
      simp
  · rw [mkBlkset_blks]
    by_cases hrem : T.length % len = 0
    · rw [if_pos hrem, if_pos hrem]
      simp
    · rw [if_neg hrem, if_neg hrem]
      simp
  · intro hrem
    rw [mkBlkset_blks, if_neg hrem]
    exact ⟨_, List.getLast?_concat _, blkAt_len T sess len _ _⟩
  · intro i hi
    rw [mkBlkset_getD T len csum sess hlen i hi]
    exact ⟨blkAt_offs T sess len i _, blkAt_idx T sess len i _⟩
  · rw [mkBlkset_blks, List.map_append, List.sum_append, List.map_map]
    have h1 : (List.range (T.length / len)).map
          (Blk.len ∘ fun i => blkAt T sess len i len)
        = (List.range (T.length / len)).map fun _ => len :=
      List.map_congr_left fun i _ => blkAt_len T sess len i len
    rw [h1, sum_map_const]
    by_cases hrem : T.length % len = 0
    · rw [if_pos hrem]
      simp only [List.map_nil, List.sum_nil, Nat.add_zero]
      rw [Nat.mul_comm]
      exact Nat.mul_div_cancel' (Nat.dvd_of_mod_eq_zero hrem)
    · rw [if_neg hrem]
      simp only [List.map_cons, List.map_nil, List.sum_cons, List.sum_nil,
        blkAt_len, Nat.add_zero]
      rw [Nat.mul_comm]
      exact Nat.div_add_mod T.length len
  · intro i hi
    have hi1 : i < (mkBlkset T len csum sess).blks.length := by omega
    rw [mkBlkset_getD T len csum sess hlen i hi1,
      mkBlkset_getD T len csum sess hlen (i + 1) hi]
    have hq : i < T.length / len := by
      have hlb : (mkBlkset T len csum sess).blks.length
          ≤ T.length / len + 1 := by
        rw [mkBlkset_blks]
        by_cases hrem : T.length % len = 0
        · rw [if_pos hrem]; simp
        · rw [if_neg hrem]; simp
      omega
    rw [if_pos hq, blkAt_offs, blkAt_offs, blkAt_len]
    ring

/-- Witness for C3 at the 5-byte file `[1, 2, 3, 4, 5]` with block
length 2 (two full blocks and a remainder block of length 1). -/
theorem C3_blkset_shape_witness :
    0 < 2 ∧
      (((mkBlkset [1, 2, 3, 4, 5] 2 2 ⟨0⟩).blks.filter fun b => b.len == 2).length
          = ([1, 2, 3, 4, 5] : List Nat).length / 2 ∧
        (mkBlkset [1, 2, 3, 4, 5] 2 2 ⟨0⟩).blks.length
          = ([1, 2, 3, 4, 5] : List Nat).length / 2
            + (if ([1, 2, 3, 4, 5] : List Nat).length % 2 = 0 then 0 else 1) ∧
        (([1, 2, 3, 4, 5] : List Nat).length % 2 ≠ 0 →
          ∃ b, (mkBlkset [1, 2, 3, 4, 5] 2 2 ⟨0⟩).blks.getLast? = some b
            ∧ b.len = ([1, 2, 3, 4, 5] : List Nat).length % 2) ∧
        (∀ i, i < (mkBlkset [1, 2, 3, 4, 5] 2 2 ⟨0⟩).blks.length →
          ((mkBlkset [1, 2, 3, 4, 5] 2 2 ⟨0⟩).blks.getD i default).offs = i * 2 ∧
          ((mkBlkset [1, 2, 3, 4, 5] 2 2 ⟨0⟩).blks.getD i default).idx = i) ∧
        ((mkBlkset [1, 2, 3, 4, 5] 2 2 ⟨0⟩).blks.map Blk.len).sum
          = ([1, 2, 3, 4, 5] : List Nat).length ∧
        (∀ i, i + 1 < (mkBlkset [1, 2, 3, 4, 5] 2 2 ⟨0⟩).blks.length →
          ((mkBlkset [1, 2, 3, 4, 5] 2 2 ⟨0⟩).blks.getD (i + 1) default).offs
            = ((mkBlkset [1, 2, 3, 4, 5] 2 2 ⟨0⟩).blks.getD i default).offs
              + ((mkBlkset [1, 2, 3, 4, 5] 2 2 ⟨0⟩).blks.getD i default).len)) :=
  ⟨by decide, C3_blkset_shape [1, 2, 3, 4, 5] 2 2 ⟨0⟩ (by decide)⟩

/-- C6: for an empty file the constructed block set has no blocks,
`len = 0` and `rem = 0`, its serialisation carries no per-block records,
and the sender's token stream is exactly the terminating zero count
followed by the 16-byte whole-file digest of the empty input. -/
theorem C6_empty_file (len csum : Nat) (sess : Sess) :
    (mkBlkset [] len csum sess).blks.length = 0 ∧
      (mkBlkset [] len csum sess).len = 0 ∧
      (mkBlkset [] len csum sess).rem = 0 ∧
      blkRecords (mkBlkset [] len csum sess) = [] ∧
      (blk_match sess (mkBlkset [] len csum sess) []).1 = [] ∧
      tokWire (blk_match sess (mkBlkset [] len csum sess) [])
        = leBytes 4 0 ++ hash_file [] sess ∧
      (hash_file [] sess).length = 16 :=
  ⟨rfl, rfl, rfl, rfl, rfl, rfl, md4_length _⟩

/-! ## §4.4 literal-run chunking bounds -/

/-- The byte length of a literal record (0 for a block reference). -/
def litLen : Token → Nat
  | Token.lit b => b.length
  | Token.ref _ => 0

/-- Is a token an acceptable record: literal runs carry at most
`MAX_CHUNK = 32768` bytes. -/
def litOk : Token → Bool
  | Token.lit b => decide (b.length ≤ 32768)
  | Token.ref _ => true

theorem chunkLitsAux_litOk (fuel : Nat) :
    ∀ l, ((chunkLitsAux fuel l).all litOk) = true := by
  induction fuel with
  | zero => intro l; rfl
  | succ fuel ih =>
      intro l
      by_cases hl : l = []
      · subst hl; rfl
      · simp only [chunkLitsAux, if_neg hl, List.all_cons, ih, Bool.and_true]
        simp [litOk]

theorem chunkLits_litOk (l : List Nat) : ((chunkLits l).all litOk) = true :=
  chunkLitsAux_litOk l.length l

theorem chunkLitsAux_nil (fuel : Nat) : chunkLitsAux fuel [] = [] := by
  cases fuel <;> rfl

theorem chunkLitsAux_dropLast_full :
    ∀ fuel l, l.length ≤ fuel →
      (((chunkLitsAux fuel l).dropLast).all fun t => litLen t == 32768) = true := by
  intro fuel
  induction fuel with
  | zero => intro l _; rfl
  | succ fuel ih =>
      intro l h
      by_cases hl : l = []
      · subst hl; rfl
      · simp only [chunkLitsAux, if_neg hl]
        by_cases hrest : chunkLitsAux fuel (l.drop 32768) = []
        · rw [hrest]
          rfl
        · rw [List.dropLast_cons_of_ne_nil hrest, List.all_cons]
          have hdrop : l.drop 32768 ≠ [] := by
            intro hd
            exact hrest (hd ▸ chunkLitsAux_nil fuel)
          have hlong : 32768 < l.length := by
            by_contra hc
            exact hdrop (List.drop_eq_nil_of_le (by omega))
          have h1 : litLen (Token.lit (l.take 32768)) == 32768 := by
            simp [litLen, List.length_take]
            omega
          rw [h1, ih (l.drop 32768) (by simp only [List.length_drop]; omega)]
          rfl

theorem chunkLits_dropLast_full (l : List Nat) :
    (((chunkLits l).dropLast).all fun t => litLen t == 32768) = true :=
  chunkLitsAux_dropLast_full l.length l (le_refl _)

theorem matchGo_litOk (sess : Sess) (bs : Blkset) (S : List Nat) :
    ∀ fuel pos litStart, ((matchGo sess bs S fuel pos litStart).all litOk) = true := by
  intro fuel
  induction fuel with
  | zero => intro pos litStart; exact chunkLits_litOk _
  | succ fuel ih =>
      intro pos litStart
      simp only [matchGo]
      by_cases hlt : pos < S.length
      · rw [if_pos hlt]
        rcases findBlk sess bs.csum bs.blks ((S.drop pos).take bs.len) with _ | k
        · exact ih (pos + 1) litStart
        · simp only [List.all_append, List.all_cons, chunkLits_litOk, ih,
            Bool.and_true, litOk]
      · rw [if_neg hlt]
        exact chunkLits_litOk _

/-- C7: every literal record the matcher emits carries at most
`MAX_CHUNK = 32768` bytes; a pending run is chunked so that every record
except possibly the last is exactly `MAX_CHUNK` bytes, and chunking
loses no bytes (the records concatenate back to the run). -/
theorem C7_literal_cap :
    (∀ (sess : Sess) (bs : Blkset) (S : List Nat),
        ((blk_match sess bs S).1.all litOk) = true) ∧
      (∀ l : List Nat,
        (((chunkLits l).dropLast).all fun t => litLen t == 32768) = true) ∧
      (∀ (T : List Nat) (bs : Blkset) (l : List Nat),
        blk_merge T bs (chunkLits l) = l) :=
  ⟨fun sess bs S => matchGo_litOk sess bs S (S.length + 1) 0 0,
   chunkLits_dropLast_full,
   blk_merge_chunkLits⟩

/-! ## §4.1 seed placement in the two strong digests -/

/-- C10 (amended): `hash_slow` digests the 4 little-endian seed bytes
followed by the buffer while `hash_file` digests the buffer followed by
the seed bytes; the placements differ, so for every buffer whose first
byte differs from the first seed byte the two functions digest different
concatenations.  (At the empty buffer — and generally whenever the seed
bytes and the buffer commute under concatenation — the two
concatenations, hence the digests, coincide, so "every input" fails.) -/
theorem C10_seed_placement (buf : List Nat) (sess : Sess) :
    hash_slow buf sess = md4 (seedBytes sess ++ buf) ∧
      hash_file buf sess = md4 (buf ++ seedBytes sess) ∧
      (∀ a t, buf = a :: t → a ≠ (seedBytes sess).getD 0 0 →
        seedBytes sess ++ buf ≠ buf ++ seedBytes sess) := by
  refine ⟨rfl, rfl, ?_⟩
  intro a t hbuf hne heq
  have hlen : (seedBytes sess).length = 4 := leBytes_length 4 _
  cases hsd : seedBytes sess with
  | nil => rw [hsd] at hlen; simp at hlen
  | cons s0 srest =>
      rw [hsd, hbuf] at heq
      simp only [List.cons_append, List.cons.injEq] at heq
      apply hne
      rw [hsd]
      simpa using heq.1.symm

/-- Witness for C10 at `buf = [1]`, seed 0 (first byte 1 differs from
first seed byte 0). -/
theorem C10_seed_placement_witness :
    hash_slow [1] ⟨0⟩ = md4 (seedBytes ⟨0⟩ ++ [1]) ∧
      hash_file [1] ⟨0⟩ = md4 ([1] ++ seedBytes ⟨0⟩) ∧
      seedBytes ⟨0⟩ ++ [1] ≠ [1] ++ seedBytes ⟨0⟩ :=
  ⟨(C10_seed_placement [1] ⟨0⟩).1, (C10_seed_placement [1] ⟨0⟩).2.1,
    (C10_seed_placement [1] ⟨0⟩).2.2 1 [] rfl (by decide)⟩

/-- Counterexample to C10 as stated: at the empty buffer the two
concatenations coincide, so the two functions compute the same digest —
"for every input the two functions compute digests of different
concatenations" is false. -/
theorem C10_counterexample :
    seedBytes ⟨0⟩ ++ ([] : List Nat) = ([] : List Nat) ++ seedBytes ⟨0⟩ ∧
      hash_slow [] ⟨0⟩ = hash_file [] ⟨0⟩ := by
  constructor
  · decide
  · decide

/-! ## §4.5, §7: per-file merge outcome policy -/

/-- The three possible outcomes of one file's merge. -/
inductive MergeVerdict where
  | commit
  | retryQueue
  | hardError
deriving Repr, DecidableEq

/-- Modelled from the spec: the whole-file digest decision of `blk_merge`
(§4.5 step 3), missing from `src/`: on a match commit; on a phase-1
mismatch queue a phase-2 retry; on a phase-2 mismatch record a per-file
hard error. -/
def mergeVerdict (phase : Nat) (digestOk : Bool) : MergeVerdict :=
  if digestOk then MergeVerdict.commit
  else if phase = 1 then MergeVerdict.retryQueue
  else MergeVerdict.hardError

/-- Receiver-side session state visible to the merge-outcome policy:
the on-disk tree, the live temporary files, the phase-2 retry queue, the
recorded per-file errors, and whether the session was aborted. -/
structure RecvState where
  files : List (List Nat × List Nat)
  tmps : List (List Nat)
  retries : List (List Nat)
  errors : List (List Nat)
  aborted : Bool
deriving Repr, DecidableEq

/-- Look a path up in the on-disk tree. -/
def lookupFile (files : List (List Nat × List Nat)) (p : List Nat) :
    Option (List Nat) :=
  match files.find? (fun pc => pc.1 == p) with
  | some pc => some pc.2
  | none => none

/-- Modelled from the spec: applying one file's merge outcome to the
receiver state (§4.5 step 3 and §7 policy), missing from `src/`.  The
temporary file is always consumed: renamed into place on commit,
discarded otherwise; a phase-1 mismatch queues the file for retry; a
phase-2 mismatch records a hard error; the session never aborts on a
per-file digest mismatch. -/
def applyMerge (st : RecvState) (phase : Nat) (path tmp newContent : List Nat)
    (digestOk : Bool) : RecvState :=
  let st' := { st with tmps := st.tmps.filter fun t => !(t == tmp) }
  match mergeVerdict phase digestOk with
  | MergeVerdict.commit =>
      { st' with files := (path, newContent)
          :: st'.files.filter fun pc => !(pc.1 == path) }
  | MergeVerdict.retryQueue => { st' with retries := st'.retries ++ [path] }
  | MergeVerdict.hardError => { st' with errors := st'.errors ++ [path] }

/-- C9: a phase-1 digest mismatch queues the file for phase-2 retry and
discards the temp file, leaving the on-disk tree and error record
untouched; a phase-2 mismatch records a per-file hard error and discards
the temp file, leaving the on-disk tree (in particular the existing copy
of that path) untouched and the session unaborted. -/
theorem C9_merge_outcomes (st : RecvState) (path tmp newContent : List Nat) :
    (mergeVerdict 1 false = MergeVerdict.retryQueue ∧
      (applyMerge st 1 path tmp newContent false).retries = st.retries ++ [path] ∧
      tmp ∉ (applyMerge st 1 path tmp newContent false).tmps ∧
      (applyMerge st 1 path tmp newContent false).files = st.files ∧
      (applyMerge st 1 path tmp newContent false).errors = st.errors ∧
      (applyMerge st 1 path tmp newContent false).aborted = st.aborted) ∧
    (mergeVerdict 2 false = MergeVerdict.hardError ∧
      (applyMerge st 2 path tmp newContent false).errors = st.errors ++ [path] ∧
      tmp ∉ (applyMerge st 2 path tmp newContent false).tmps ∧
      (applyMerge st 2 path tmp newContent false).files = st.files ∧
      lookupFile (applyMerge st 2 path tmp newContent false).files path
        = lookupFile st.files path ∧
      (applyMerge st 2 path tmp newContent false).retries = st.retries ∧
      (applyMerge st 2 path tmp newContent false).aborted = st.aborted) := by
  refine ⟨⟨rfl, rfl, ?_, rfl, rfl, rfl⟩, ⟨rfl, rfl, ?_, rfl, rfl, rfl, rfl⟩⟩
  · intro hmem
    rw [applyMerge] at hmem
    simp [mergeVerdict, List.mem_filter] at hmem
  · intro hmem
    rw [applyMerge] at hmem
    simp [mergeVerdict, List.mem_filter] at hmem

/-! ## §4.2 multiplex demultiplexer -/

/-- One multiplex frame: a tag (7 = data, 0-6 = out-of-band) and a
payload of fewer than `2^24` bytes. -/
structure Frame where
  tag : Nat
  payload : List Nat
deriving Repr, DecidableEq

/-- A frame on the wire: a 4-byte little-endian header packing the
24-bit payload length in the low bits and the tag in the high byte,
followed by the payload. -/
def frameWire (f : Frame) : List Nat :=
  leBytes 4 (f.payload.length + f.tag * 16777216) ++ f.payload

/-- A sequence of frames on the wire. -/
def muxWire (fs : List Frame) : List Nat :=
  (fs.map frameWire).flatten

/-- Modelled from the spec: the multiplex demultiplexer driven by
`io_read_buf` when `mplex_reads` is set (§4.2), missing from `src/`.
It parses frame headers off the stream, delivers tag-7 payloads to the
data plane in order, collects tag-0..6 payloads as out-of-band lines,
and fails on a truncated stream.  `fuel` bounds the frame count and is
never exhausted when it starts at the stream length. -/
def demuxGo : Nat → List Nat → Option (List Nat × List (List Nat))
  | _, [] => some ([], [])
  | 0, _ :: _ => none
  | fuel + 1, s =>
      match readBytes 4 s with
      | none => none
      | some (hdr, r) =>
          match readBytes (leNum hdr % 16777216) r with
          | none => none
          | some (pl, r') =>
              match demuxGo fuel r' with
              | none => none
              | some (d, o) =>
                  if leNum hdr / 16777216 = 7 then some (pl ++ d, o)
                  else some (d, pl :: o)

/-- Demultiplex a whole multiplexed stream into the data-plane bytes and
the out-of-band lines. -/
def sess_demux (s : List Nat) : Option (List Nat × List (List Nat)) :=
  demuxGo s.length s

theorem demuxGo_nil (fuel : Nat) : demuxGo fuel [] = some ([], []) := by
  cases fuel <;> rfl

theorem demuxGo_muxWire (fs : List Frame)
    (hwf : ∀ f ∈ fs, f.payload.length < 16777216 ∧ f.tag ≤ 7) :
    ∀ fuel, (muxWire fs).length ≤ fuel →
      demuxGo fuel (muxWire fs)
        = some ((((fs.filter fun f => f.tag == 7).map Frame.payload).flatten),
            ((fs.filter fun f => !(f.tag == 7)).map Frame.payload)) := by
  induction fs with
  | nil =>
      intro fuel _
      simp only [muxWire, List.map_nil, List.flatten_nil, List.filter_nil]
      exact demuxGo_nil fuel
  | cons f fs ih =>
      intro fuel hfuel
      have hf := hwf f (List.mem_cons_self f fs)
      have hwf' : ∀ g ∈ fs, g.payload.length < 16777216 ∧ g.tag ≤ 7 :=
        fun g hg => hwf g (List.mem_cons_of_mem f hg)
      have hmw : muxWire (f :: fs) = frameWire f ++ muxWire fs := by
        simp [muxWire]
      have hlen4 : (muxWire (f :: fs)).length
          = 4 + f.payload.length + (muxWire fs).length := by
        simp [hmw, frameWire, leBytes_length]
        omega
      obtain ⟨fuel', rfl⟩ : ∃ fuel', fuel = fuel' + 1 := by
        refine ⟨fuel - 1, ?_⟩
        omega
      have hne : muxWire (f :: fs) ≠ [] := by
        intro hnil
        rw [hnil] at hlen4
        simp only [List.length_nil] at hlen4
        omega
      set v := f.payload.length + f.tag * 16777216 with hv
      have hvlt : v < 4294967296 := by
        have h1 := hf.1
        have h2 : f.tag * 16777216 ≤ 7 * 16777216 := Nat.mul_le_mul_right _ hf.2
        omega
      have hvm : v % 16777216 = f.payload.length := by
        rw [hv, Nat.add_mul_mod_self_right, Nat.mod_eq_of_lt hf.1]
      have hvd : v / 16777216 = f.tag := by
        rw [hv, Nat.add_mul_div_right _ _ (by norm_num : (0:Nat) < 16777216),
          Nat.div_eq_of_lt hf.1]
        omega
      have hunf : demuxGo (fuel' + 1) (muxWire (f :: fs))
          = match readBytes 4 (muxWire (f :: fs)) with
            | none => none
            | some (hdr, r) =>
                match readBytes (leNum hdr % 16777216) r with
                | none => none
                | some (pl, r') =>
                    match demuxGo fuel' r' with
                    | none => none
                    | some (d, o) =>
                        if leNum hdr / 16777216 = 7 then some (pl ++ d, o)
                        else some (d, pl :: o) := by
        rcases hcons : muxWire (f :: fs) with _ | ⟨b, rest⟩
        · exact absurd hcons hne
        · rfl
      rw [hunf]
      have hsplit : muxWire (f :: fs) = leBytes 4 v ++ (f.payload ++ muxWire fs) := by
        rw [hmw]
        simp [frameWire, hv, List.append_assoc]
      rw [hsplit]
      have hr1 : readBytes 4 (leBytes 4 v ++ (f.payload ++ muxWire fs))
          = some (leBytes 4 v, f.payload ++ muxWire fs) := by
        have h := readBytes_append (leBytes 4 v) (f.payload ++ muxWire fs)
        rw [leBytes_length] at h
        exact h
      have hln : leNum (leBytes 4 v) = v := by
        rw [leNum_leBytes]
        exact Nat.mod_eq_of_lt hvlt
      rw [hr1]
      simp only [hln, hvm, hvd, readBytes_append f.payload (muxWire fs),
        ih hwf' fuel' (by omega)]
      by_cases h7 : f.tag = 7
      · rw [if_pos h7]
        simp [List.filter_cons, h7]
      · rw [if_neg h7]
        simp [List.filter_cons, h7]

/-- C8: with multiplexed reads, for every well-formed interleaving of
data frames (tag 7) and out-of-band frames (tags 0-6) — each frame a
4-byte header packing a 24-bit length and the tag in the high byte,
followed by that many payload bytes — the demultiplexed data-plane byte
stream equals exactly the concatenation of the data-frame payloads, and
the out-of-band payloads are delivered in order alongside. -/
theorem C8_mux_transparent (fs : List Frame)
    (hwf : ∀ f ∈ fs, f.payload.length < 16777216 ∧ f.tag ≤ 7) :
    sess_demux (muxWire fs)
      = some ((((fs.filter fun f => f.tag == 7).map Frame.payload).flatten),
          ((fs.filter fun f => !(f.tag == 7)).map Frame.payload)) :=
  demuxGo_muxWire fs hwf (muxWire fs).length (le_refl _)

/-- Witness for C8 at the interleaving `data [1,2]`, `log [108]`,
`data [3]`: the data plane is `[1, 2, 3]`. -/
theorem C8_mux_transparent_witness :
    (∀ f ∈ [Frame.mk 7 [1, 2], Frame.mk 1 [108], Frame.mk 7 [3]],
        f.payload.length < 16777216 ∧ f.tag ≤ 7) ∧
      sess_demux (muxWire [Frame.mk 7 [1, 2], Frame.mk 1 [108], Frame.mk 7 [3]])
        = some (((([Frame.mk 7 [1, 2], Frame.mk 1 [108], Frame.mk 7 [3]].filter
              fun f => f.tag == 7).map Frame.payload).flatten),
            (([Frame.mk 7 [1, 2], Frame.mk 1 [108], Frame.mk 7 [3]].filter
              fun f => !(f.tag == 7)).map Frame.payload)) :=
  ⟨by decide, C8_mux_transparent _ (by decide)⟩

/-! ## §4.6 file list: path canonicalisation -/

/-- Split a path on `/` (byte 47) into its components; the empty path
has one empty component. -/
def splitSlash : List Nat → List (List Nat)
  | [] => [[]]
  | c :: t =>
      match splitSlash t with
      | [] => [[c]]
      | h :: hs => if c = 47 then [] :: h :: hs else (c :: h) :: hs

/-- Rejoin components with `/` separators; inverse of `splitSlash`. -/
def joinSlash : List (List Nat) → List Nat
  | [] => []
  | [c] => c
  | c :: cs => c ++ 47 :: joinSlash cs

theorem splitSlash_ne_nil (p : List Nat) : splitSlash p ≠ [] := by
  cases p with
  | nil => simp [splitSlash]
  | cons c t =>
      simp only [splitSlash]
      rcases splitSlash t with _ | ⟨h, hs⟩
      · simp
      · show (if c = 47 then [] :: h :: hs else (c :: h) :: hs) ≠ []
        by_cases hc : c = 47
        · rw [if_pos hc]; simp
        · rw [if_neg hc]; simp

theorem joinSlash_cons_cons (c d : List Nat) (cs : List (List Nat)) :
    joinSlash (c :: d :: cs) = c ++ 47 :: joinSlash (d :: cs) := rfl

theorem joinSlash_splitSlash (p : List Nat) : joinSlash (splitSlash p) = p := by
  induction p with
  | nil => rfl
  | cons c t ih =>
      simp only [splitSlash]
      rcases hs : splitSlash t with _ | ⟨h, hs'⟩
      · exact absurd hs (splitSlash_ne_nil t)
      · show joinSlash (if c = 47 then [] :: h :: hs' else (c :: h) :: hs') = c :: t
        by_cases hc : c = 47
        · rw [if_pos hc, joinSlash_cons_cons]
          rw [hs] at ih
          rw [List.nil_append, ih, hc]
        · rw [if_neg hc]
          cases hs' with
          | nil =>
              rw [hs] at ih
              simp only [joinSlash] at ih ⊢
              rw [ih]
          | cons h2 hs2 =>
              rw [hs, joinSlash_cons_cons] at ih
              rw [joinSlash_cons_cons]
              simp only [List.cons_append, List.append_assoc] at ih ⊢
              rw [ih]

theorem joinSlash_length (c : List Nat) (cs : List (List Nat)) :
    (joinSlash (c :: cs)).length
      = c.length + ((cs.map List.length).sum + cs.length) := by
  induction cs generalizing c with
  | nil => simp [joinSlash]
  | cons d ds ih =>
      rw [joinSlash_cons_cons]
      simp only [List.length_append, List.length_cons, ih d, List.map_cons,
        List.sum_cons]
      omega

/-- Is a component dropped by canonicalisation: empty (collapses `//` and
a leading `/`) or `.` (strips `./`). -/
def isDropComp (cmp : List Nat) : Bool :=
  cmp == [] || cmp == [46]

/-- Modelled from the spec: path canonicalisation (§4.6), missing from
`src/`: strip `./` and empty components (hence a leading `/`), reject a
path containing a `..` component, reject a path with nothing left. -/
def canonPath (p : List Nat) : Option (List Nat) :=
  if (splitSlash p).contains [46, 46] then none
  else
    match (splitSlash p).filter (fun c => !(isDropComp c)) with
    | [] => none
    | c :: cs => some (joinSlash (c :: cs))

theorem canonPath_length_le (p q : List Nat) (h : canonPath p = some q) :
    q.length ≤ p.length := by
  unfold canonPath at h
  by_cases hdd : (splitSlash p).contains [46, 46]
  · rw [if_pos hdd] at h
    exact absurd h (by simp)
  · rw [if_neg hdd] at h
    rcases hfil : (splitSlash p).filter (fun c => !(isDropComp c)) with _ | ⟨c, cs⟩
    · rw [hfil] at h
      exact absurd h (by simp)
    · rw [hfil] at h
      have hq : q = joinSlash (c :: cs) := by
        have := h
        simp only [Option.some.injEq] at this
        exact this.symm
      rcases hsp : splitSlash p with _ | ⟨c0, cs0⟩
      · exact absurd hsp (splitSlash_ne_nil p)
      · have hsub : (c :: cs).Sublist (c0 :: cs0) := by
          rw [← hfil, ← hsp]
          exact List.filter_sublist _
        have hsum : ((c :: cs).map List.length).sum
            ≤ ((c0 :: cs0).map List.length).sum :=
          List.Sublist.sum_le_sum (hsub.map List.length)
            (fun x _ => Nat.zero_le x)
        have hlen : (c :: cs).length ≤ (c0 :: cs0).length :=
          hsub.length_le
        have hp : p.length = (joinSlash (c0 :: cs0)).length := by
          rw [← hsp, joinSlash_splitSlash]
        rw [hq, joinSlash_length, hp, joinSlash_length]
        simp only [List.map_cons, List.sum_cons, List.length_cons] at hsum hlen ⊢
        omega

/-! ## §4.6 file list: entries, sorting, deduplication -/

/-- A file-list entry (`struct flist`): path, and the wire-visible
metadata of protocol 27 (size, mtime, mode, optional symlink target). -/
structure FlEnt where
  path : List Nat
  size : Nat
  mtime : Nat
  mode : Nat
  link : Option (List Nat)
deriving Repr, DecidableEq

/-- Does a mode word denote a symlink (`S_IFLNK`, high nibble `0xA`). -/
def modeIsLink (m : Nat) : Bool :=
  m / 4096 % 16 == 10

/-- Wire well-formedness of one entry: every field fits its wire slot and
the symlink target is present exactly for symlink modes. -/
def wfEnt (e : FlEnt) : Bool :=
  decide (e.path.length < 4294967296) &&
  decide (e.size < 18446744073709551616) &&
  decide (e.mtime < 4294967296) &&
  decide (e.mode < 4294967296) &&
  (match e.link with
   | some t => modeIsLink e.mode && decide (t.length < 4294967296)
   | none => !(modeIsLink e.mode))

/-- Canonicalise every entry's path, dropping entries whose path
canonicalises away (contains `..`, or nothing remains). -/
def canonEnts (l : List FlEnt) : List FlEnt :=
  l.filterMap fun e => (canonPath e.path).map fun p => { e with path := p }

/-- Insert an entry into a path-sorted list, collapsing an entry whose
canonical path is already present. -/
def insEnt (x : FlEnt) : List FlEnt → List FlEnt
  | [] => [x]
  | y :: ys =>
      if x.path = y.path then y :: ys
      else if x.path < y.path then x :: y :: ys
      else y :: insEnt x ys

/-- Modelled from the spec: the sender-side canonicalise + sort +
deduplicate step of `flist_send` (§4.6), missing from `src/`. -/
def flist_sortdedup (l : List FlEnt) : List FlEnt :=
  (canonEnts l).foldr insEnt []

theorem insEnt_mem_subset (x a : FlEnt) :
    ∀ l, a ∈ insEnt x l → a = x ∨ a ∈ l := by
  intro l
  induction l with
  | nil =>
      intro h
      simp [insEnt] at h
      exact Or.inl h
  | cons y ys ih =>
      intro h
      simp only [insEnt] at h
      by_cases h1 : x.path = y.path
      · rw [if_pos h1] at h
        exact Or.inr h
      · rw [if_neg h1] at h
        by_cases h2 : x.path < y.path
        · rw [if_pos h2] at h
          rcases List.mem_cons.mp h with rfl | h
          · exact Or.inl rfl
          · exact Or.inr h
        · rw [if_neg h2] at h
          rcases List.mem_cons.mp h with rfl | h
          · exact Or.inr (List.mem_cons_self _ _)
          · rcases ih h with rfl | h
            · exact Or.inl rfl
            · exact Or.inr (List.mem_cons_of_mem _ h)

theorem insEnt_path_mem (x : FlEnt) (p : List Nat) :
    ∀ l, p ∈ (insEnt x l).map FlEnt.path
      ↔ (p = x.path ∨ p ∈ l.map FlEnt.path) := by
  intro l
  induction l with
  | nil => simp [insEnt, eq_comm]
  | cons y ys ih =>
      simp only [insEnt]
      by_cases h1 : x.path = y.path
      · rw [if_pos h1]
        simp only [List.map_cons, List.mem_cons]
        rw [h1]
        tauto
      · rw [if_neg h1]
        by_cases h2 : x.path < y.path
        · rw [if_pos h2]
          simp only [List.map_cons, List.mem_cons]
        · rw [if_neg h2]
          simp only [List.map_cons, List.mem_cons] at ih ⊢
          rw [ih]
          tauto

theorem insEnt_sorted (x : FlEnt) :
    ∀ l, List.Pairwise (fun a b : FlEnt => a.path < b.path) l →
      List.Pairwise (fun a b : FlEnt => a.path < b.path) (insEnt x l) := by
  intro l
  induction l with
  | nil =>
      intro _
      simp [insEnt]
  | cons y ys ih =>
      intro h
      rcases List.pairwise_cons.mp h with ⟨hy, hys⟩
      simp only [insEnt]
      by_cases h1 : x.path = y.path
      · rw [if_pos h1]
        exact h
      · rw [if_neg h1]
        by_cases h2 : x.path < y.path
        · rw [if_pos h2]
          refine List.pairwise_cons.mpr ⟨?_, h⟩
          intro b hb
          rcases List.mem_cons.mp hb with rfl | hb
          · exact h2
          · exact lt_trans h2 (hy b hb)
        · rw [if_neg h2]
          refine List.pairwise_cons.mpr ⟨?_, ih hys⟩
          intro b hb
          rcases insEnt_mem_subset x b ys hb with rfl | hb
          · rcases lt_trichotomy b.path y.path with hlt | heq | hgt
            · exact absurd hlt h2
            · exact absurd heq h1
            · exact hgt
          · exact hy b hb

theorem foldr_insEnt_sorted (m : List FlEnt) :
    List.Pairwise (fun a b : FlEnt => a.path < b.path) (m.foldr insEnt []) := by
  induction m with
  | nil => simp
  | cons e es ih => exact insEnt_sorted e _ ih

theorem sortdedup_sorted (l : List FlEnt) :
    List.Pairwise (fun a b : FlEnt => a.path < b.path)
      ((canonEnts l).foldr insEnt []) :=
  foldr_insEnt_sorted (canonEnts l)

theorem foldr_insEnt_mem_subset (a : FlEnt) :
    ∀ m : List FlEnt, a ∈ m.foldr insEnt [] → a ∈ m := by
  intro m
  induction m with
  | nil => intro h; simp at h
  | cons e es ih =>
      intro h
      rcases insEnt_mem_subset e a _ h with rfl | h
      · exact List.mem_cons_self _ _
      · exact List.mem_cons_of_mem _ (ih h)

theorem foldr_insEnt_path_mem (p : List Nat) :
    ∀ m : List FlEnt,
      (p ∈ (m.foldr insEnt []).map FlEnt.path ↔ p ∈ m.map FlEnt.path) := by
  intro m
  induction m with
  | nil => simp
  | cons e es ih =>
      simp only [List.foldr_cons, List.map_cons, List.mem_cons]
      rw [insEnt_path_mem, ih]

theorem canonEnts_paths (l : List FlEnt) :
    (canonEnts l).map FlEnt.path = l.filterMap fun e => canonPath e.path := by
  induction l with
  | nil => rfl
  | cons e es ih =>
      unfold canonEnts at ih ⊢
      rcases hc : canonPath e.path with _ | q
      · simp [List.filterMap_cons, hc, ih]
      · simp [List.filterMap_cons, hc, ih]

theorem wfEnt_canonEnts (l : List FlEnt) (hwf : ∀ e ∈ l, wfEnt e = true) :
    ∀ e ∈ canonEnts l, wfEnt e = true := by
  intro e he
  rcases List.mem_filterMap.mp he with ⟨a, ha, hfa⟩
  rcases Option.map_eq_some'.mp hfa with ⟨q, hq, rfl⟩
  have hwa := hwf a ha
  have hlen := canonPath_length_le a.path q hq
  simp only [wfEnt, Bool.and_eq_true, decide_eq_true_eq] at hwa ⊢
  refine ⟨⟨⟨⟨?_, hwa.1.1.1.2⟩, hwa.1.1.2⟩, hwa.1.2⟩, hwa.2⟩
  omega

theorem wfEnt_sortdedup (l : List FlEnt) (hwf : ∀ e ∈ l, wfEnt e = true) :
    ∀ e ∈ flist_sortdedup l, wfEnt e = true := by
  intro e he
  exact wfEnt_canonEnts l hwf e
    (foldr_insEnt_mem_subset e (canonEnts l) he)

/-! ## §4.6 file list: wire codec (protocol 27) -/

/-- Read one byte off a stream. -/
def decByte : List Nat → Option (Nat × List Nat)
  | [] => none
  | b :: r => some (b, r)

/-- Read a 4-byte little-endian integer off a stream. -/
def decInt (s : List Nat) : Option (Nat × List Nat) :=
  match readBytes 4 s with
  | none => none
  | some (w, r) => some (leNum w, r)

/-- The wire "long" encoding of `io_write_long` (§4.2): a value below
`INT32_MAX` as one 4-byte integer, otherwise the `INT32_MAX` sentinel
followed by an 8-byte little-endian value. -/
def encLong (n : Nat) : List Nat :=
  if n < 2147483647 then leBytes 4 n
  else leBytes 4 2147483647 ++ leBytes 8 n

/-- Decode the wire "long" encoding (`io_read_long`). -/
def decLong (s : List Nat) : Option (Nat × List Nat) :=
  match decInt s with
  | none => none
  | some (w, r) =>
      if w = 2147483647 then
        match readBytes 8 r with
        | none => none
        | some (w8, r') => some (leNum w8, r')
      else some (w, r)

/-- The new-suffix-length encoding (§4.6): one byte, or the `0xff`
sentinel followed by a 4-byte length. -/
def encSuffixLen (n : Nat) : List Nat :=
  if n < 255 then [n] else 255 :: leBytes 4 n

/-- Decode the new-suffix-length encoding. -/
def decSuffixLen : List Nat → Option (Nat × List Nat)
  | [] => none
  | b :: rest =>
      if b = 255 then
        match readBytes 4 rest with
        | none => none
        | some (w, r) => some (leNum w, r)
      else some (b, rest)

/-- Length of the longest common prefix of two byte strings. -/
def commonPrefLen : List Nat → List Nat → Nat
  | a :: as, b :: bs => if a = b then commonPrefLen as bs + 1 else 0
  | _, _ => 0

/-- The status byte of one entry (§4.6): bit `0x01` announces the
shared-prefix length byte (always emitted by this sender, keeping the
byte nonzero and so distinct from the terminator), bit `0x20` "same mode
as previous", bit `0x40` "same mtime as previous". -/
def statusByte (prev e : FlEnt) : Nat :=
  1 + (if e.mode = prev.mode then 32 else 0)
    + (if e.mtime = prev.mtime then 64 else 0)

/-- The shared-prefix length of one entry, capped at one byte. -/
def sharedLen (prev e : FlEnt) : Nat :=
  min (commonPrefLen prev.path e.path) 255

/-- The body of one encoded entry after the status and shared-prefix
bytes: suffix length, suffix bytes, size as wire long, then the mtime
and mode fields when not inherited, then the symlink target for
symlink modes. -/
def entryBody (prev e : FlEnt) : List Nat :=
  encSuffixLen (e.path.drop (sharedLen prev e)).length
    ++ (e.path.drop (sharedLen prev e))
    ++ encLong e.size
    ++ (if e.mtime = prev.mtime then [] else leBytes 4 e.mtime)
    ++ (if e.mode = prev.mode then [] else leBytes 4 e.mode)
    ++ (if modeIsLink e.mode
        then leBytes 4 (e.link.getD []).length ++ e.link.getD []
        else [])

/-- One entry on the wire, delta-compressed against the previous one. -/
def encEntry (prev e : FlEnt) : List Nat :=
  statusByte prev e :: sharedLen prev e :: entryBody prev e

/-- A whole file list on the wire: the entries in order, each encoded
against its predecessor, then the terminating zero status byte. -/
def encEntries : FlEnt → List FlEnt → List Nat
  | _, [] => [0]
  | prev, e :: rest => encEntry prev e ++ encEntries e rest

/-- The all-zero previous entry the delta compression starts from. -/
def initEnt : FlEnt :=
  { path := [], size := 0, mtime := 0, mode := 0, link := none }

/-- Decode one entry given its (nonzero) status byte and the stream
after it. -/
def decEntry (prev : FlEnt) (status : Nat) (s : List Nat) :
    Option (FlEnt × List Nat) :=
  match (if status % 2 = 1 then decByte s else some (0, s)) with
  | none => none
  | some (shared, s1) =>
      match decSuffixLen s1 with
      | none => none
      | some (suffLen, s2) =>
          match readBytes suffLen s2 with
          | none => none
          | some (suffix, s3) =>
              match decLong s3 with
              | none => none
              | some (size, s4) =>
                  match (if status / 64 % 2 = 1 then some (prev.mtime, s4)
                         else decInt s4) with
                  | none => none
                  | some (mtime, s5) =>
                      match (if status / 32 % 2 = 1 then some (prev.mode, s5)
                             else decInt s5) with
                      | none => none
                      | some (mode, s6) =>
                          if modeIsLink mode then
                            match decInt s6 with
                            | none => none
                            | some (tlen, s7) =>
                                match readBytes tlen s7 with
                                | none => none
                                | some (tgt, s8) =>
                                    some (⟨prev.path.take shared ++ suffix,
                                      size, mtime, mode, some tgt⟩, s8)
                          else
                            some (⟨prev.path.take shared ++ suffix,
                              size, mtime, mode, none⟩, s6)

/-- Decode a whole file list: read status bytes until the zero
terminator; `fuel` bounds the entry count and is never exhausted when it
starts at the stream length. -/
def decEntries : Nat → FlEnt → List Nat → Option (List FlEnt)
  | _, _, [] => none
  | 0, _, _ :: _ => none
  | fuel + 1, prev, status :: s =>
      if status = 0 then some []
      else
        match decEntry prev status s with
        | none => none
        | some (e, rest) =>
            match decEntries fuel e rest with
            | none => none
            | some es => some (e :: es)

/-- Modelled from the spec: `flist_send` (§4.6), missing from `src/`:
canonicalise, sort and deduplicate the entries, then emit the protocol-27
delta-compressed wire encoding. -/
def flist_send (entries : List FlEnt) : List Nat :=
  encEntries initEnt (flist_sortdedup entries)

/-- Modelled from the spec: `flist_recv` (§4.6), missing from `src/`:
parse the protocol-27 wire encoding, accepting the sender's order. -/
def flist_recv (s : List Nat) : Option (List FlEnt) :=
  decEntries s.length initEnt s

/-! ## §4.6 file list: codec round-trip -/

theorem decByte_cons (b : Nat) (r : List Nat) : decByte (b :: r) = some (b, r) := rfl

theorem decInt_append (n : Nat) (rest : List Nat) (h : n < 4294967296) :
    decInt (leBytes 4 n ++ rest) = some (n, rest) := by
  unfold decInt
  have h4 := readBytes_append (leBytes 4 n) rest
  rw [leBytes_length] at h4
  rw [h4]
  show some (leNum (leBytes 4 n), rest) = some (n, rest)
  rw [leNum_leBytes, show (256:Nat) ^ 4 = 4294967296 by norm_num,
    Nat.mod_eq_of_lt h]

theorem decLong_append (n : Nat) (rest : List Nat)
    (h : n < 18446744073709551616) :
    decLong (encLong n ++ rest) = some (n, rest) := by
  unfold encLong decLong
  by_cases hn : n < 2147483647
  · rw [if_pos hn, decInt_append n rest (by omega)]
    show (if n = 2147483647 then _ else some (n, rest)) = some (n, rest)
    rw [if_neg (by omega)]
  · rw [if_neg hn, List.append_assoc,
      decInt_append 2147483647 _ (by norm_num)]
    show (if (2147483647:Nat) = 2147483647 then _ else _) = some (n, rest)
    rw [if_pos rfl]
    have h8 := readBytes_append (leBytes 8 n) rest
    rw [leBytes_length] at h8
    rw [h8]
    show some (leNum (leBytes 8 n), rest) = some (n, rest)
    rw [leNum_leBytes, show (256:Nat) ^ 8 = 18446744073709551616 by norm_num,
      Nat.mod_eq_of_lt h]

theorem decSuffixLen_append (n : Nat) (rest : List Nat) (h : n < 4294967296) :
    decSuffixLen (encSuffixLen n ++ rest) = some (n, rest) := by
  unfold encSuffixLen
  by_cases hn : n < 255
  · rw [if_pos hn]
    show (if n = 255 then
        match readBytes 4 rest with
        | none => none
        | some (w, r) => some (leNum w, r)
      else some (n, rest)) = some (n, rest)
    rw [if_neg (by omega)]
  · rw [if_neg hn]
    show (if (255:Nat) = 255 then
        match readBytes 4 (leBytes 4 n ++ rest) with
        | none => none
        | some (w, r) => some (leNum w, r)
      else some (255, leBytes 4 n ++ rest)) = some (n, rest)
    rw [if_pos rfl]
    have h4 := readBytes_append (leBytes 4 n) rest
    rw [leBytes_length] at h4
    rw [h4]
    show some (leNum (leBytes 4 n), rest) = some (n, rest)
    rw [leNum_leBytes, show (256:Nat) ^ 4 = 4294967296 by norm_num,
      Nat.mod_eq_of_lt h]

theorem take_commonPrefLen :
    ∀ (a b : List Nat) (j : Nat), j ≤ commonPrefLen a b → a.take j = b.take j := by
  intro a
  induction a with
  | nil =>
      intro b j h
      have h0 : commonPrefLen [] b = 0 := by cases b <;> rfl
      rw [h0] at h
      have : j = 0 := by omega
      subst this
      rfl
  | cons x as ih =>
      intro b j h
      cases b with
      | nil =>
          have h0 : commonPrefLen (x :: as) [] = 0 := rfl
          rw [h0] at h
          have : j = 0 := by omega
          subst this
          rfl
      | cons y bs =>
          by_cases hxy : x = y
          · cases j with
            | zero => rfl
            | succ j' =>
                have hc : commonPrefLen (x :: as) (y :: bs)
                    = commonPrefLen as bs + 1 := by
                  simp [commonPrefLen, hxy]
                rw [hc] at h
                rw [List.take_succ_cons, List.take_succ_cons, hxy,
                  ih bs j' (by omega)]
          · have hc : commonPrefLen (x :: as) (y :: bs) = 0 := by
              simp [commonPrefLen, hxy]
            rw [hc] at h
            have : j = 0 := by omega
            subst this
            rfl

theorem decSuffixLen_append' (n : Nat) (h : n < 4294967296) :
    ∀ rest, decSuffixLen (encSuffixLen n ++ rest) = some (n, rest) :=
  fun rest => decSuffixLen_append n rest h

theorem decInt_append' (n : Nat) (h : n < 4294967296) :
    ∀ rest, decInt (leBytes 4 n ++ rest) = some (n, rest) :=
  fun rest => decInt_append n rest h

theorem decLong_append' (n : Nat) (h : n < 18446744073709551616) :
    ∀ rest, decLong (encLong n ++ rest) = some (n, rest) :=
  fun rest => decLong_append n rest h

theorem readBytes_append' (xs : List Nat) (k : Nat) (h : xs.length = k) :
    ∀ rest, readBytes k (xs ++ rest) = some (xs, rest) :=
  fun rest => h ▸ readBytes_append xs rest

theorem decEntry_enc (prev e : FlEnt) (rest : List Nat)
    (hwf : wfEnt e = true) :
    decEntry prev (statusByte prev e)
      (sharedLen prev e :: (entryBody prev e ++ rest)) = some (e, rest) := by
  obtain ⟨p, sz, mt, md, lnk⟩ := e
  have hpath : prev.path.take (min (commonPrefLen prev.path p) 255)
      ++ p.drop (min (commonPrefLen prev.path p) 255) = p := by
    rw [take_commonPrefLen prev.path p _ (min_le_left _ _)]
    exact List.take_append_drop _ p
  have hsuffix : (p.drop (min (commonPrefLen prev.path p) 255)).length
      = p.length - min (commonPrefLen prev.path p) 255 := by
    simp
  rcases lnk with _ | tgt
  · simp only [wfEnt, Bool.and_eq_true, decide_eq_true_eq,
      Bool.not_eq_true'] at hwf
    obtain ⟨⟨⟨⟨hp, hsz⟩, hmt⟩, hmd⟩, hl⟩ := hwf
    have hN : p.length - min (commonPrefLen prev.path p) 255 < 4294967296 := by
      omega
    by_cases hm : md = prev.mode <;> by_cases htm : mt = prev.mtime
    · have hl2 : modeIsLink prev.mode = false := hm ▸ hl
      simp [decEntry, statusByte, entryBody, sharedLen, hm, htm, hl, hl2,
        decByte_cons, decSuffixLen_append' _ hN, readBytes_append' _ _ hsuffix,
        decLong_append' _ hsz, List.append_assoc, hpath]
    · have hl2 : modeIsLink prev.mode = false := hm ▸ hl
      simp [decEntry, statusByte, entryBody, sharedLen, hm, htm, hl, hl2,
        decByte_cons, decSuffixLen_append' _ hN, readBytes_append' _ _ hsuffix,
        decLong_append' _ hsz, decInt_append' _ hmt, List.append_assoc, hpath]
    · simp [decEntry, statusByte, entryBody, sharedLen, hm, htm, hl,
        decByte_cons, decSuffixLen_append' _ hN, readBytes_append' _ _ hsuffix,
        decLong_append' _ hsz, decInt_append' _ hmd, List.append_assoc, hpath]
    · simp [decEntry, statusByte, entryBody, sharedLen, hm, htm, hl,
        decByte_cons, decSuffixLen_append' _ hN, readBytes_append' _ _ hsuffix,
        decLong_append' _ hsz, decInt_append' _ hmt, decInt_append' _ hmd,
        List.append_assoc, hpath]
  · simp only [wfEnt, Bool.and_eq_true, decide_eq_true_eq] at hwf
    obtain ⟨⟨⟨⟨hp, hsz⟩, hmt⟩, hmd⟩, hl, htl⟩ := hwf
    have hN : p.length - min (commonPrefLen prev.path p) 255 < 4294967296 := by
      omega
    by_cases hm : md = prev.mode <;> by_cases htm : mt = prev.mtime
    · have hl2 : modeIsLink prev.mode = true := hm ▸ hl
      simp [decEntry, statusByte, entryBody, sharedLen, hm, htm, hl, hl2,
        decByte_cons, decSuffixLen_append' _ hN, readBytes_append' _ _ hsuffix,
        decLong_append' _ hsz, decInt_append' _ htl, readBytes_append,
        List.append_assoc, hpath]
    · have hl2 : modeIsLink prev.mode = true := hm ▸ hl
      simp [decEntry, statusByte, entryBody, sharedLen, hm, htm, hl, hl2,
        decByte_cons, decSuffixLen_append' _ hN, readBytes_append' _ _ hsuffix,
        decLong_append' _ hsz, decInt_append' _ hmt, decInt_append' _ htl,
        readBytes_append, List.append_assoc, hpath]
    · simp [decEntry, statusByte, entryBody, sharedLen, hm, htm, hl,
        decByte_cons, decSuffixLen_append' _ hN, readBytes_append' _ _ hsuffix,
        decLong_append' _ hsz, decInt_append' _ hmd, decInt_append' _ htl,
        readBytes_append, List.append_assoc, hpath]
    · simp [decEntry, statusByte, entryBody, sharedLen, hm, htm, hl,
        decByte_cons, decSuffixLen_append' _ hN, readBytes_append' _ _ hsuffix,
        decLong_append' _ hsz, decInt_append' _ hmt, decInt_append' _ hmd,
        decInt_append' _ htl, readBytes_append, List.append_assoc, hpath]

theorem statusByte_ne_zero (prev e : FlEnt) : statusByte prev e ≠ 0 := by
  unfold statusByte
  omega

theorem decEntries_enc :
    ∀ (l : List FlEnt) (prev : FlEnt) (fuel : Nat),
      (encEntries prev l).length ≤ fuel → (∀ e ∈ l, wfEnt e = true) →
      decEntries fuel prev (encEntries prev l) = some l := by
  intro l
  induction l with
  | nil =>
      intro prev fuel hf _
      obtain ⟨f, rfl⟩ : ∃ f, fuel = f + 1 := by
        refine ⟨fuel - 1, ?_⟩
        simp [encEntries] at hf
        omega
      show decEntries (f + 1) prev [0] = some []
      simp [decEntries]
  | cons e es ih =>
      intro prev fuel hf hwf
      have hwe := hwf e (List.mem_cons_self _ _)
      have hwes : ∀ x ∈ es, wfEnt x = true :=
        fun x hx => hwf x (List.mem_cons_of_mem _ hx)
      have henc : encEntries prev (e :: es)
          = statusByte prev e :: sharedLen prev e
            :: (entryBody prev e ++ encEntries e es) := by
        simp [encEntries, encEntry]
      obtain ⟨f, rfl⟩ : ∃ f, fuel = f + 1 := by
        refine ⟨fuel - 1, ?_⟩
        rw [henc] at hf
        simp at hf
        omega
      have hlen : (encEntries e es).length ≤ f := by
        rw [henc] at hf
        simp only [List.length_cons, List.length_append] at hf
        omega
      rw [henc]
      simp only [decEntries, if_neg (statusByte_ne_zero prev e),
        decEntry_enc prev e _ hwe, ih e f hlen hwes]

/-- C5: for every multiset of entries whose fields fit the wire,
`flist_send` followed by `flist_recv` yields exactly the canonicalised,
lexicographically sorted, deduplicated sequence: the received list is the
sender's sort-dedup result, its paths are strictly increasing (hence
sorted and duplicate-free), and a path appears in it exactly when it is
the canonicalisation of some input path. -/
theorem C5_flist_canonical (entries : List FlEnt)
    (hwf : ∀ e ∈ entries, wfEnt e = true) :
    flist_recv (flist_send entries) = some (flist_sortdedup entries) ∧
      List.Pairwise (fun a b : FlEnt => a.path < b.path)
        (flist_sortdedup entries) ∧
      (∀ p, p ∈ (flist_sortdedup entries).map FlEnt.path
        ↔ p ∈ entries.filterMap fun e => canonPath e.path) := by
  refine ⟨?_, sortdedup_sorted entries, ?_⟩
  · unfold flist_recv flist_send
    exact decEntries_enc (flist_sortdedup entries) initEnt _ (le_refl _)
      (wfEnt_sortdedup entries hwf)
  · intro p
    unfold flist_sortdedup
    rw [foldr_insEnt_path_mem p (canonEnts entries), canonEnts_paths]

/-- Witness for C5 at the two regular files `b` and `a` (paths `[98]`
and `[97]`). -/
theorem C5_flist_canonical_witness :
    (∀ e ∈ [FlEnt.mk [98] 1 2 3 none, FlEnt.mk [97] 4 5 6 none],
        wfEnt e = true) ∧
      (flist_recv (flist_send [FlEnt.mk [98] 1 2 3 none, FlEnt.mk [97] 4 5 6 none])
          = some (flist_sortdedup
              [FlEnt.mk [98] 1 2 3 none, FlEnt.mk [97] 4 5 6 none]) ∧
        List.Pairwise (fun a b : FlEnt => a.path < b.path)
          (flist_sortdedup [FlEnt.mk [98] 1 2 3 none, FlEnt.mk [97] 4 5 6 none]) ∧
        (∀ p, p ∈ (flist_sortdedup
              [FlEnt.mk [98] 1 2 3 none, FlEnt.mk [97] 4 5 6 none]).map FlEnt.path
          ↔ p ∈ [FlEnt.mk [98] 1 2 3 none, FlEnt.mk [97] 4 5 6 none].filterMap
              fun e => canonPath e.path)) :=
  ⟨by decide, C5_flist_canonical
    [FlEnt.mk [98] 1 2 3 none, FlEnt.mk [97] 4 5 6 none] (by decide)⟩
